import Mathlib

/-!
Shallow embedding of the westhighlandway repository (src/utils.py,
src/extract.py, src/generate_map.py) and proofs about its
natural-language specification.

The geometry library (shapely/GEOS, reached through geopandas) is not
part of this repository, so its operations are abstracted as an
explicit dictionary of functions over an arbitrary geometry type.  The
dataframe-level control flow of the repository code - reprojection,
area columns, filtering, grouping, buffering, simplification - is
translated stage by stage from the source.
-/

/-- A dataframe cell value: OSM tag columns hold strings, the derived
area column holds a number.  Numbers are modelled as rationals. -/
inductive Val where
  | str (s : String)
  | num (q : ℚ)
deriving DecidableEq

/-- Read a column from a row, first matching key wins (pandas columns
are unique in this pipeline). -/
def getCol : List (String × Val) → String → Option Val
  | [], _ => none
  | (k0, v0) :: rest, k => if k0 = k then some v0 else getCol rest k

/-- Column assignment, as in pandas `df[k] = v`: overwrite the column
if present, otherwise append it as the last column. -/
def setCol : List (String × Val) → String → Val → List (String × Val)
  | [], k, v => [(k, v)]
  | (k0, v0) :: rest, k, v =>
      if k0 = k then (k, v) :: rest else (k0, v0) :: setCol rest k v

theorem getCol_setCol_self (a : List (String × Val)) (k : String) (v : Val) :
    getCol (setCol a k v) k = some v := by
  induction a with
  | nil => simp [setCol, getCol]
  | cons p rest ih =>
      obtain ⟨k0, v0⟩ := p
      by_cases h : k0 = k
      · simp [setCol, getCol, h]
      · simp [setCol, getCol, h, ih]

theorem getCol_setCol_of_ne (a : List (String × Val)) (k k2 : String) (v : Val)
    (hne : k2 ≠ k) : getCol (setCol a k v) k2 = getCol a k2 := by
  induction a with
  | nil => simp [setCol, getCol, Ne.symm hne]
  | cons p rest ih =>
      obtain ⟨k0, v0⟩ := p
      by_cases h : k0 = k
      · subst h
        simp [setCol, getCol, Ne.symm hne]
      · simp [setCol, getCol, h, ih]

theorem keys_setCol_of_not_mem (a : List (String × Val)) (k : String) (v : Val)
    (h : k ∉ a.map Prod.fst) :
    (setCol a k v).map Prod.fst = a.map Prod.fst ++ [k] := by
  induction a with
  | nil => simp [setCol]
  | cons p rest ih =>
      obtain ⟨k0, v0⟩ := p
      simp only [List.map_cons, List.mem_cons] at h
      push_neg at h
      have hne : k0 ≠ k := fun hk => h.1 hk.symm
      simp [setCol, hne, ih h.2]

/-- Operations of the geometry library (shapely/GEOS via geopandas)
that the repository code calls, abstracted over the geometry type:
reprojection between the input CRS and the metric working CRS, planar
area, buffering by a (possibly negative) distance, topology-preserving
simplification, unary union of a collection, decomposition of a
MultiPolygon into its parts (`parts g = some l` when `g` is a
MultiPolygon with part list `l`), and the empty geometry. -/
structure GeomOps (G : Type) where
  toWorking : G → G
  toInput : G → G
  area : G → ℚ
  buffer : ℚ → G → G
  simplify : ℚ → G → G
  unionAll : List G → G
  parts : G → Option (List G)
  empty : G

/-- One row of a GeoDataFrame: a geometry plus the remaining columns
as an association list. -/
structure Feature (G : Type) where
  geometry : G
  attrs : List (String × Val)
deriving DecidableEq

/-- Embedding of `filter_and_smooth_geometries` from src/utils.py:
reproject to the metric working CRS, write the planar area into the
`area_m2` column, keep only rows whose `area_m2` is strictly above the
threshold, smooth by a positive then a negative buffer of the same
magnitude, simplify, and reproject back to the input CRS. -/
def filter_and_smooth_geometries {G : Type} (ops : GeomOps G)
    (area_threshold_m2 smooth_strength_m simplify_factor : ℚ)
    (gdf : List (Feature G)) : List (Feature G) :=
  let gdf_m := gdf.map fun r => { r with geometry := ops.toWorking r.geometry }
  let gdf_m := gdf_m.map fun r =>
    { r with attrs := setCol r.attrs "area_m2" (Val.num (ops.area r.geometry)) }
  let gdf_filtered := gdf_m.filter fun r =>
    match getCol r.attrs "area_m2" with
    | some (Val.num a) => decide (area_threshold_m2 < a)
    | _ => false
  let gdf_filtered := gdf_filtered.map fun r =>
    { r with geometry :=
        ops.buffer (-smooth_strength_m) (ops.buffer smooth_strength_m r.geometry) }
  let gdf_filtered := gdf_filtered.map fun r =>
    { r with geometry := ops.simplify simplify_factor r.geometry }
  gdf_filtered.map fun r => { r with geometry := ops.toInput r.geometry }

/-- The predicate the area filter of `filter_and_smooth_geometries`
effectively applies to an input row: the planar area of the geometry,
measured in the metric working CRS, strictly exceeds the threshold. -/
def fusedKeep {G : Type} (ops : GeomOps G) (t : ℚ) (r : Feature G) : Bool :=
  decide (t < ops.area (ops.toWorking r.geometry))

/-- The per-row transformation `filter_and_smooth_geometries` applies
to a retained row: record the metric area in the `area_m2` column and
replace the geometry by its smoothed, simplified version reprojected
back to the input CRS. -/
def fusedTransform {G : Type} (ops : GeomOps G) (s tol : ℚ) (r : Feature G) :
    Feature G :=
  { geometry :=
      ops.toInput (ops.simplify tol
        (ops.buffer (-s) (ops.buffer s (ops.toWorking r.geometry)))),
    attrs := setCol r.attrs "area_m2" (Val.num (ops.area (ops.toWorking r.geometry))) }

theorem filter_and_smooth_eq {G : Type} (ops : GeomOps G) (t s tol : ℚ)
    (gdf : List (Feature G)) :
    filter_and_smooth_geometries ops t s tol gdf =
      (gdf.filter (fusedKeep ops t)).map (fusedTransform ops s tol) := by
  induction gdf with
  | nil => rfl
  | cons r rest ih =>
      by_cases h : t < ops.area (ops.toWorking r.geometry)
      · simp only [filter_and_smooth_geometries, List.map_cons, List.filter_cons,
          getCol_setCol_self, decide_eq_true h, if_true, fusedKeep,
          fusedTransform] at ih ⊢
        exact congrArg₂ List.cons rfl ih
      · simp only [filter_and_smooth_geometries, List.map_cons, List.filter_cons,
          getCol_setCol_self, decide_eq_false h, Bool.false_eq_true, if_false,
          fusedKeep, fusedTransform] at ih ⊢
        exact ih

/-- Insert a category key into a sorted key list, skipping duplicates.
Together with `sortedKeys` this models the key order of pandas
`groupby`, which iterates groups in sorted key order. -/
def insertKey (s : String) : List String → List String
  | [] => [s]
  | t :: ts =>
      if s = t then t :: ts
      else if s ≤ t then s :: t :: ts
      else t :: insertKey s ts

/-- Sorted, duplicate-free list of keys. -/
def sortedKeys : List String → List String
  | [] => []
  | s :: ss => insertKey s (sortedKeys ss)

/-- The category of a row as read by `groupby("category")`: rows whose
category column is missing or non-string belong to no group. -/
def rowCategory {G : Type} (r : Feature G) : Option String :=
  match getCol r.attrs "category" with
  | some (Val.str s) => some s
  | _ => none

/-- Group keys of `groupby("category")` over a feature collection. -/
def categoryKeys {G : Type} (gdf : List (Feature G)) : List String :=
  sortedKeys (gdf.filterMap rowCategory)

/-- First stage of `stylize_natural_geometries` (src/utils.py lines
91-95): reproject to the metric CRS, write the `area_m2` column, keep
the rows whose area strictly exceeds the threshold. -/
def stylizeFilter {G : Type} (ops : GeomOps G) (area_threshold_m2 : ℚ)
    (gdf0 : List (Feature G)) : List (Feature G) :=
  let gdf := gdf0.map fun r => { r with geometry := ops.toWorking r.geometry }
  let gdf := gdf.map fun r =>
    { r with attrs := setCol r.attrs "area_m2" (Val.num (ops.area r.geometry)) }
  gdf.filter fun r =>
    match getCol r.attrs "area_m2" with
    | some (Val.num a) => decide (area_threshold_m2 < a)
    | _ => false

/-- Loop body of `stylize_natural_geometries` (src/utils.py lines
100-122) for one category group: nothing for the sentinel "other";
otherwise buffer every geometry of the group by the proximity
threshold, union them, optionally buffer again by the smoothing
strength, simplify, and emit one `{category, geometry}` row per part
of a MultiPolygon result (a single row otherwise). -/
def stylizeGroup {G : Type} (ops : GeomOps G)
    (proximity_threshold_m smooth_strength_m simplify_factor : ℚ)
    (gdf : List (Feature G)) (cat : String) : List (Feature G) :=
  if cat ≠ "other" then
    let group := gdf.filter fun r => rowCategory r = some cat
    let buffered := group.map fun r => ops.buffer proximity_threshold_m r.geometry
    let fused := ops.unionAll buffered
    let fused :=
      if 0 < smooth_strength_m then ops.buffer smooth_strength_m fused else fused
    let simplified := ops.simplify simplify_factor fused
    match ops.parts simplified with
    | some geoms => geoms.map fun g =>
        ({ geometry := g, attrs := [("category", Val.str cat)] } : Feature G)
    | none => [{ geometry := simplified, attrs := [("category", Val.str cat)] }]
  else []

/-- Embedding of `stylize_natural_geometries` from src/utils.py: area
filter, per-category merge loop over the sorted groupby keys, then
construction of the result GeoDataFrame and reprojection back to the
input CRS.

The final construction models the geopandas behavior at
`gpd.GeoDataFrame(final_geoms, crs=working_crs)`: when `final_geoms`
is the empty list the constructed frame has no geometry column, and
geopandas raises a ValueError because a CRS is being assigned to a
GeoDataFrame without a geometry column (older geopandas versions
instead fail inside `to_crs`, which needs an active geometry column);
this failure is modelled by the `Except.error` branch. -/
def stylize_natural_geometries {G : Type} (ops : GeomOps G)
    (area_threshold_m2 proximity_threshold_m smooth_strength_m simplify_factor : ℚ)
    (gdf0 : List (Feature G)) : Except String (List (Feature G)) :=
  let gdf := stylizeFilter ops area_threshold_m2 gdf0
  let final_geoms := (categoryKeys gdf).flatMap
    (stylizeGroup ops proximity_threshold_m smooth_strength_m simplify_factor gdf)
  if final_geoms.isEmpty then
    Except.error
      "Assigning CRS to a GeoDataFrame without a geometry column is not supported"
  else
    Except.ok (final_geoms.map fun r => { r with geometry := ops.toInput r.geometry })

/-- A decimal numeral, modelling the text Python `repr` produces for a
binary64 float of coordinate magnitude (no exponent form): optional
minus sign, integer digits, a dot, fraction digits.  Python float repr
round-trips exactly, so the numeric content is carried verbatim by its
digit lists. -/
structure Dec where
  neg : Bool
  intDigits : List ℕ
  fracDigits : List ℕ
deriving DecidableEq

/-- The digits of a well-formed numeral are decimal digits and both
digit blocks are nonempty (Python float repr always prints at least
one digit on each side of the dot). -/
def wfDigits (ds : List ℕ) : Prop := ds ≠ [] ∧ ∀ d ∈ ds, d < 10

def wfDec (x : Dec) : Prop := wfDigits x.intDigits ∧ wfDigits x.fracDigits

instance : DecidablePred wfDigits := fun ds => by
  unfold wfDigits; infer_instance

instance : DecidablePred wfDec := fun x => by
  unfold wfDec; infer_instance

def digitChar (d : ℕ) : Char :=
  match d with
  | 0 => '0'
  | 1 => '1'
  | 2 => '2'
  | 3 => '3'
  | 4 => '4'
  | 5 => '5'
  | 6 => '6'
  | 7 => '7'
  | 8 => '8'
  | _ => '9'

def charDigit (c : Char) : Option ℕ :=
  if c = '0' then some 0
  else if c = '1' then some 1
  else if c = '2' then some 2
  else if c = '3' then some 3
  else if c = '4' then some 4
  else if c = '5' then some 5
  else if c = '6' then some 6
  else if c = '7' then some 7
  else if c = '8' then some 8
  else if c = '9' then some 9
  else none

def renderDigits (ds : List ℕ) : List Char := ds.map digitChar

/-- Python repr of a float: sign, integer digits, dot, fraction digits. -/
def renderDec (x : Dec) : List Char :=
  (if x.neg then ['-'] else []) ++ renderDigits x.intDigits
    ++ '.' :: renderDigits x.fracDigits

/-- Join rendered pieces with a separator, as str.join does. -/
def sepJoin (sep : List Char) : List (List Char) → List Char
  | [] => []
  | [x] => x
  | x :: y :: xs => x ++ sep ++ sepJoin sep (y :: xs)

/-- Python str of a tuple of floats: a one-element tuple prints with a
trailing comma, longer ones separate elements with comma-space. -/
def renderTuple (t : List Dec) : List Char :=
  match t with
  | [x] => '(' :: renderDec x ++ [',', ')']
  | _ => '(' :: sepJoin [',', ' '] (t.map renderDec) ++ [')']

/-- Python str of a list of tuples of floats, the exact text that
`to_csv` stores in the Coordinates cell of the points and segments
tables (csv quoting around the cell is inverse-stripped by read_csv
and is the identity on the cell content, which contains no quote). -/
def renderPyList (L : List (List Dec)) : List Char :=
  '[' :: sepJoin [',', ' '] (L.map renderTuple) ++ [']']

/-- Longest run of decimal digits at the head of the input. -/
def takeDigits : List Char → List ℕ × List Char
  | [] => ([], [])
  | c :: cs =>
      match charDigit c with
      | some d =>
          let p := takeDigits cs
          (d :: p.1, p.2)
      | none => ([], c :: cs)

/-- Parse an unsigned decimal numeral: digits, dot, digits. -/
def parseUDec (cs : List Char) : Option (Dec × List Char) :=
  match takeDigits cs with
  | ([], _) => none
  | (d :: ds, rest) =>
      match rest with
      | '.' :: rest2 =>
          match takeDigits rest2 with
          | ([], _) => none
          | (f :: fs, rest3) => some (⟨false, d :: ds, f :: fs⟩, rest3)
      | _ => none

/-- Parse a possibly negative decimal numeral, as the Python literal
grammar used by ast.literal_eval and eval reads one. -/
def parseDec (cs : List Char) : Option (Dec × List Char) :=
  match cs with
  | [] => none
  | c :: cs2 =>
      if c = '-' then
        match parseUDec cs2 with
        | some (x, rest) => some ({ x with neg := true }, rest)
        | none => none
      else parseUDec (c :: cs2)

/-- Parse the items of a tuple after the opening parenthesis, up to
and including the closing parenthesis; accepts both the trailing-comma
form of one-element tuples and the comma-space separated form. -/
def parseItems : ℕ → List Char → Option (List Dec × List Char)
  | 0, _ => none
  | fuel + 1, cs =>
      match parseDec cs with
      | none => none
      | some (x, rest) =>
          match rest with
          | ')' :: r => some ([x], r)
          | ',' :: ')' :: r => some ([x], r)
          | ',' :: ' ' :: r =>
              match parseItems fuel r with
              | some (xs, r2) => some (x :: xs, r2)
              | none => none
          | _ => none

/-- Parse one parenthesised tuple of numerals. -/
def parseTuple (fuel : ℕ) (cs : List Char) : Option (List Dec × List Char) :=
  match cs with
  | '(' :: r => parseItems fuel r
  | _ => none

/-- Parse the comma-space separated tuples of a list literal, up to
and including the closing bracket. -/
def parseTuples : ℕ → List Char → Option (List (List Dec) × List Char)
  | 0, _ => none
  | fuel + 1, cs =>
      match parseTuple cs.length cs with
      | none => none
      | some (t, rest) =>
          match rest with
          | ']' :: r => some ([t], r)
          | ',' :: ' ' :: r =>
              match parseTuples fuel r with
              | some (ts, r2) => some (t :: ts, r2)
              | none => none
          | _ => none

/-- Parse a Python list-of-tuples literal, the re-parsing that
src/generate_map.py performs on the Coordinates cells with eval (for
segments) and ast.literal_eval (for points). -/
def parsePyList (cs : List Char) : Option (List (List Dec) × List Char) :=
  match cs with
  | '[' :: ']' :: r => some (([] : List (List Dec)), r)
  | '[' :: r => parseTuples r.length r
  | _ => none

/-- A placemark record as built by `extract_kml_segments` in
src/extract.py after XML parsing: the placemark name and the ordered
list of coordinate tuples parsed from the whitespace-separated,
comma-separated coordinates text.  Numbers carry the decimal-literal
model of binary64 floats. -/
structure Placemark where
  Name : String
  Coordinates : List (List Dec)
deriving DecidableEq

/-- The points table of `extract_kml_segments`: placemarks whose
coordinate sequence has length exactly 1. -/
def pointsTable (doc : List Placemark) : List Placemark :=
  doc.filter fun pm => pm.Coordinates.length = 1

/-- The pre-slice segments rows of `extract_kml_segments`: placemarks
whose coordinate sequence has more than one coordinate. -/
def segmentsAll (doc : List Placemark) : List Placemark :=
  doc.filter fun pm => 1 < pm.Coordinates.length

/-- pandas `iloc[a:b]` on a row list. -/
def ilocSlice {α : Type} (a b : ℕ) (l : List α) : List α :=
  (l.take b).drop a

/-- The segments table returned by `extract_kml_segments`: the
multi-coordinate placemarks restricted to the configured contiguous
slice (the default argument is the slice (3, 11)). -/
def segmentsTable (a b : ℕ) (doc : List Placemark) : List Placemark :=
  ilocSlice a b (segmentsAll doc)

/-- Return value of `extract_kml_segments` from src/extract.py:
the pair (segments_df, points_df). -/
def extract_kml_segments (a b : ℕ) (doc : List Placemark) :
    List Placemark × List Placemark :=
  (segmentsTable a b doc, pointsTable doc)

/-- The Coordinates cell text that `extract_kml_segments` writes to
the csv tables for a placemark row: the Python str of its list of
coordinate tuples. -/
def coordinates_cell (pm : Placemark) : List Char :=
  renderPyList pm.Coordinates

/-- The tag columns of one raw OSM feature row that `classify` in
src/generate_map.py consults; a missing tag is None/NaN and fails
every membership test. -/
structure TagRow where
  natural : Option String
  landuse : Option String
  landcover : Option String
  leisure : Option String

/-- Membership of a possibly missing tag in a tag list, as the Python
`in` test behaves inside classify. -/
def optMem (o : Option String) (l : List String) : Bool :=
  match o with
  | some v => l.contains v
  | none => false

def grass_tags_natural : List String := ["heath"]

def grass_tags_landuse : List String := ["meadow", "farmland", "grass", "orchard"]

def grass_tags_landcover : List String := ["grass", "crop"]

def forest_tags_landuse : List String := ["forest"]

def forest_tags_natural : List String := ["wood", "tundra"]

/-- Embedding of `classify` from src/generate_map.py: first-match
cascade checking natural against the forest tag set, then landuse
against the forest tag set, then natural against the grass tag set;
everything else is "other".  The landuse and landcover entries of the
grass tag set are defined but never consulted by the cascade. -/
def classify (row : TagRow) : String :=
  if optMem row.natural forest_tags_natural then "forest"
  else if optMem row.landuse forest_tags_landuse then "forest"
  else if optMem row.natural grass_tags_natural then "grass"
  else "other"

/-- The input does not begin with a decimal digit, so a maximal-munch
digit scan stops right away. -/
def noDigitHead : List Char → Prop
  | [] => True
  | c :: _ => charDigit c = none

theorem charDigit_digitChar (d : ℕ) (h : d < 10) :
    charDigit (digitChar d) = some d := by
  interval_cases d <;> rfl

theorem digitChar_ne_dash (d : ℕ) : digitChar d ≠ '-' := by
  unfold digitChar
  split <;> decide

theorem takeDigits_render (ds : List ℕ) (rest : List Char)
    (hd : ∀ d ∈ ds, d < 10) (hrest : noDigitHead rest) :
    takeDigits (renderDigits ds ++ rest) = (ds, rest) := by
  induction ds with
  | nil =>
      cases rest with
      | nil => rfl
      | cons c cs =>
          simp only [renderDigits, List.map_nil, List.nil_append]
          unfold takeDigits
          unfold noDigitHead at hrest
          rw [hrest]
  | cons d ds ih =>
      have hdd : d < 10 := hd d (List.mem_cons_self d ds)
      simp only [renderDigits, List.map_cons, List.cons_append]
      unfold takeDigits
      rw [charDigit_digitChar d hdd]
      have := ih (fun x hx => hd x (List.mem_cons_of_mem d hx))
      simp only [renderDigits] at this
      rw [this]

theorem parseUDec_render (I F : List ℕ) (rest : List Char)
    (hI : wfDigits I) (hF : wfDigits F) (hrest : noDigitHead rest) :
    parseUDec (renderDigits I ++ '.' :: (renderDigits F ++ rest)) =
      some (⟨false, I, F⟩, rest) := by
  obtain ⟨hIne, hId⟩ := hI
  obtain ⟨hFne, hFd⟩ := hF
  obtain ⟨d, ds, rfl⟩ : ∃ d ds, I = d :: ds := by
    cases I with
    | nil => exact absurd rfl hIne
    | cons a as => exact ⟨a, as, rfl⟩
  obtain ⟨f, fs, rfl⟩ : ∃ f fs, F = f :: fs := by
    cases F with
    | nil => exact absurd rfl hFne
    | cons a as => exact ⟨a, as, rfl⟩
  unfold parseUDec
  rw [takeDigits_render (d :: ds) ('.' :: (renderDigits (f :: fs) ++ rest)) hId
    (by unfold noDigitHead; rfl)]
  simp only []
  rw [takeDigits_render (f :: fs) rest hFd hrest]

theorem parseDec_render (x : Dec) (rest : List Char)
    (hx : wfDec x) (hrest : noDigitHead rest) :
    parseDec (renderDec x ++ rest) = some (x, rest) := by
  obtain ⟨hI, hF⟩ := hx
  obtain ⟨d, ds, hIds⟩ : ∃ d ds, x.intDigits = d :: ds := by
    cases hh : x.intDigits with
    | nil => exact absurd hh hI.1
    | cons a as => exact ⟨a, as, rfl⟩
  cases hneg : x.neg with
  | true =>
      have hx2 : renderDec x ++ rest =
          '-' :: (renderDigits x.intDigits ++ '.' :: (renderDigits x.fracDigits ++ rest)) := by
        simp [renderDec, hneg]
      rw [hx2]
      unfold parseDec
      simp only [if_pos rfl]
      rw [parseUDec_render x.intDigits x.fracDigits rest hI hF hrest]
      simp only []
      cases x
      simp_all
  | false =>
      have hx2 : renderDec x ++ rest =
          digitChar d :: (renderDigits ds ++ '.' :: (renderDigits x.fracDigits ++ rest)) := by
        simp [renderDec, hneg, hIds, renderDigits]
      rw [hx2]
      rw [parseDec]
      rw [if_neg (digitChar_ne_dash d)]
      have : digitChar d :: (renderDigits ds ++ '.' :: (renderDigits x.fracDigits ++ rest)) =
          renderDigits x.intDigits ++ '.' :: (renderDigits x.fracDigits ++ rest) := by
        simp [hIds, renderDigits]
      rw [this, parseUDec_render x.intDigits x.fracDigits rest hI hF hrest]
      congr 1
      congr 1
      cases x
      simp_all

theorem renderDec_length_pos (x : Dec) : 1 ≤ (renderDec x).length := by
  cases h : x.neg
  · simp [renderDec, h]
    omega
  · simp [renderDec, h]

theorem sepJoin_length_ge (sep : List Char) (L : List (List Char))
    (h : ∀ x ∈ L, 1 ≤ x.length) : L.length ≤ (sepJoin sep L).length := by
  induction L with
  | nil => simp [sepJoin]
  | cons x xs ih =>
      cases xs with
      | nil => simpa [sepJoin] using h x (List.mem_cons_self x [])
      | cons y ys =>
          have h1 := h x (List.mem_cons_self x (y :: ys))
          have h2 := ih (fun z hz => h z (List.mem_cons_of_mem x hz))
          simp only [sepJoin, List.length_append, List.length_cons] at *
          omega

theorem renderTuple_length_ge (t : List Dec) : t.length ≤ (renderTuple t).length := by
  cases t with
  | nil => simp
  | cons x xs =>
      cases xs with
      | nil => simp [renderTuple]
      | cons y ys =>
          have h := sepJoin_length_ge [',', ' '] ((x :: y :: ys).map renderDec)
            (by intro z hz
                obtain ⟨w, _, rfl⟩ := List.mem_map.mp hz
                exact renderDec_length_pos w)
          simp only [renderTuple, List.length_cons, List.length_append,
            List.length_map] at *
          omega

theorem renderTuple_head (t : List Dec) : ∃ b, renderTuple t = '(' :: b := by
  cases t with
  | nil => exact ⟨_, rfl⟩
  | cons x xs =>
      cases xs with
      | nil => exact ⟨_, rfl⟩
      | cons y ys => exact ⟨_, rfl⟩

theorem parseItems_render_seq (t : List Dec) (rest : List Char) (fuel : ℕ)
    (hne : t ≠ []) (hwf : ∀ x ∈ t, wfDec x) (hfuel : t.length ≤ fuel) :
    parseItems fuel (sepJoin [',', ' '] (t.map renderDec) ++ ')' :: rest) =
      some (t, rest) := by
  induction t generalizing fuel rest with
  | nil => exact absurd rfl hne
  | cons x xs ih =>
      obtain ⟨f, rfl⟩ : ∃ f, fuel = f + 1 := by
        cases fuel with
        | zero => simp at hfuel
        | succ n => exact ⟨n, rfl⟩
      cases xs with
      | nil =>
          simp only [List.map_cons, List.map_nil, sepJoin]
          rw [parseItems]
          rw [parseDec_render x (')' :: rest) (hwf x (List.mem_cons_self x []))
            (by unfold noDigitHead; rfl)]
          rfl
      | cons y ys =>
          simp only [List.map_cons, sepJoin, List.append_assoc, List.cons_append,
            List.nil_append]
          rw [parseItems]
          rw [parseDec_render x
            (',' :: ' ' :: (sepJoin [',', ' '] (renderDec y :: ys.map renderDec) ++ ')' :: rest))
            (hwf x (List.mem_cons_self x (y :: ys))) (by unfold noDigitHead; rfl)]
          simp only []
          have hih := ih rest f (by simp)
            (fun z hz => hwf z (List.mem_cons_of_mem x hz))
            (by simp only [List.length_cons] at hfuel ⊢; omega)
          simp only [List.map_cons] at hih
          rw [hih]

theorem parseTuple_render (t : List Dec) (rest : List Char) (fuel : ℕ)
    (hne : t ≠ []) (hwf : ∀ x ∈ t, wfDec x) (hfuel : t.length ≤ fuel) :
    parseTuple fuel (renderTuple t ++ rest) = some (t, rest) := by
  cases t with
  | nil => exact absurd rfl hne
  | cons x xs =>
      obtain ⟨f, rfl⟩ : ∃ f, fuel = f + 1 := by
        cases fuel with
        | zero => simp at hfuel
        | succ n => exact ⟨n, rfl⟩
      cases xs with
      | nil =>
          simp only [renderTuple, List.cons_append, List.append_assoc]
          rw [parseTuple]
          simp only [List.nil_append]
          rw [parseItems]
          rw [parseDec_render x (',' :: ')' :: rest) (hwf x (List.mem_cons_self x []))
            (by unfold noDigitHead; rfl)]
          rfl
      | cons y ys =>
          have hrt : renderTuple (x :: y :: ys) ++ rest =
              '(' :: (sepJoin [',', ' '] ((x :: y :: ys).map renderDec) ++ ')' :: rest) := by
            simp [renderTuple, List.append_assoc]
          rw [hrt, parseTuple]
          exact parseItems_render_seq (x :: y :: ys) rest (f + 1) (by simp) hwf hfuel

theorem parseTuples_render (L : List (List Dec)) (rest : List Char) (fuel : ℕ)
    (hne : L ≠ []) (hwf : ∀ t ∈ L, t ≠ [] ∧ ∀ x ∈ t, wfDec x)
    (hfuel : L.length ≤ fuel) :
    parseTuples fuel (sepJoin [',', ' '] (L.map renderTuple) ++ ']' :: rest) =
      some (L, rest) := by
  induction L generalizing fuel rest with
  | nil => exact absurd rfl hne
  | cons t ts ih =>
      obtain ⟨f, rfl⟩ : ∃ f, fuel = f + 1 := by
        cases fuel with
        | zero => simp at hfuel
        | succ n => exact ⟨n, rfl⟩
      obtain ⟨htne, htwf⟩ := hwf t (List.mem_cons_self t ts)
      cases ts with
      | nil =>
          simp only [List.map_cons, List.map_nil, sepJoin]
          rw [parseTuples]
          rw [parseTuple_render t (']' :: rest) _ htne htwf
            (le_trans (renderTuple_length_ge t) (by simp))]
          rfl
      | cons u us =>
          simp only [List.map_cons, sepJoin, List.append_assoc, List.cons_append,
            List.nil_append]
          rw [parseTuples]
          rw [parseTuple_render t
            (',' :: ' ' :: (sepJoin [',', ' '] (renderTuple u :: us.map renderTuple) ++ ']' :: rest))
            _ htne htwf (le_trans (renderTuple_length_ge t) (by simp))]
          simp only []
          have hih := ih rest f (by simp)
            (fun z hz => hwf z (List.mem_cons_of_mem t hz))
            (by simp only [List.length_cons] at hfuel ⊢; omega)
          simp only [List.map_cons] at hih
          rw [hih]

theorem renderTuple_length_pos (t : List Dec) : 1 ≤ (renderTuple t).length := by
  obtain ⟨b, hb⟩ := renderTuple_head t
  simp [hb]

theorem parsePyList_render (L : List (List Dec))
    (hwf : ∀ t ∈ L, t ≠ [] ∧ ∀ x ∈ t, wfDec x) :
    parsePyList (renderPyList L) = some (L, []) := by
  cases L with
  | nil => rfl
  | cons t ts =>
      obtain ⟨b, hb⟩ := renderTuple_head t
      have hshape : renderPyList (t :: ts) =
          '[' :: (sepJoin [',', ' '] ((t :: ts).map renderTuple) ++ ']' :: []) := by
        simp [renderPyList]
      have hhead : ∃ b2, sepJoin [',', ' '] ((t :: ts).map renderTuple) ++ ']' :: [] =
          '(' :: b2 := by
        cases ts with
        | nil => exact ⟨b ++ [']'], by simp [sepJoin, hb]⟩
        | cons u us =>
            exact ⟨b ++ ',' :: ' ' ::
              (sepJoin [',', ' '] (renderTuple u :: List.map renderTuple us) ++ [']']),
              by simp [sepJoin, hb, List.append_assoc]⟩
      obtain ⟨b2, hb2⟩ := hhead
      rw [hshape]
      rw [hb2, parsePyList]
      · rw [← hb2]
        refine parseTuples_render (t :: ts) [] _ (by simp) hwf ?_
        refine le_trans ?_ (by simp : (sepJoin [',', ' '] ((t :: ts).map renderTuple)).length ≤
          (sepJoin [',', ' '] ((t :: ts).map renderTuple) ++ ']' :: []).length)
        have h1 := sepJoin_length_ge [',', ' '] ((t :: ts).map renderTuple)
          (by intro z hz
              obtain ⟨w, _, rfl⟩ := List.mem_map.mp hz
              exact renderTuple_length_pos w)
        simpa using h1
      · intro r hr
        injection hr with h1 _
        exact absurd h1 (by decide)

/-- A concrete instantiation of the geometry operations used to
evaluate the pipeline at concrete inputs: a geometry is carried by an
integer summary, projections are the identity, buffering by distance d
shifts the summary by the numerator of d, simplification at tolerance
tol shifts it down by the numerator of tol (a topology-preserving
simplification may shrink a shape by up to its tolerance), union sums,
and nothing is a MultiPolygon. -/
def qOps : GeomOps ℤ where
  toWorking := id
  toInput := id
  area := fun g => (g : ℚ)
  buffer := fun d g => g + d.num
  simplify := fun tol g => g - tol.num
  unionAll := fun l => l.foldr (fun a b => a + b) 0
  parts := fun _ => none
  empty := 0

/-- Instantiation in which a negative buffer collapses every geometry
to the empty geometry while simplification and reprojection keep the
empty geometry empty, exercising the empty-collapse path of the
buffer-in/buffer-out smoothing step. -/
def collapseOps : GeomOps ℤ where
  toWorking := id
  toInput := id
  area := fun g => (g : ℚ)
  buffer := fun d g => if d < 0 then 0 else g
  simplify := fun _ g => g
  unionAll := fun l => l.foldr (fun a b => a + b) 0
  parts := fun _ => none
  empty := 0

/-- Instantiation in which buffering and simplification leave the
geometry unchanged, representing a collection on which smoothing and
simplification have already converged. -/
def idOps : GeomOps ℤ where
  toWorking := id
  toInput := id
  area := fun g => (g : ℚ)
  buffer := fun _ g => g
  simplify := fun _ g => g
  unionAll := fun l => l.foldr (fun a b => a + b) 0
  parts := fun _ => none
  empty := 0

/-- C1: the generic filter-and-smooth operation discards exactly the
rows whose planar area, computed in the metric working frame before
any smoothing, is at most the threshold: the output has one row per
input row whose metric area strictly exceeds the threshold, every such
input row contributes its transformed row, and every output row
descends from an input row whose metric area strictly exceeded the
threshold at filter time. -/
theorem filter_retains_exactly_above_threshold {G : Type} (ops : GeomOps G)
    (t s tol : ℚ) (gdf : List (Feature G)) :
    (filter_and_smooth_geometries ops t s tol gdf).length =
        gdf.countP (fun r => decide (t < ops.area (ops.toWorking r.geometry))) ∧
    (∀ r ∈ gdf, t < ops.area (ops.toWorking r.geometry) →
        fusedTransform ops s tol r ∈ filter_and_smooth_geometries ops t s tol gdf) ∧
    (∀ q ∈ filter_and_smooth_geometries ops t s tol gdf,
        ∃ r ∈ gdf, t < ops.area (ops.toWorking r.geometry) ∧
          q = fusedTransform ops s tol r) := by
  refine ⟨?_, ?_, ?_⟩
  · rw [filter_and_smooth_eq, List.length_map, List.countP_eq_length_filter]
    rfl
  · intro r hr hlt
    rw [filter_and_smooth_eq]
    exact List.mem_map_of_mem _
      (List.mem_filter.mpr ⟨hr, by simpa [fusedKeep] using hlt⟩)
  · intro q hq
    rw [filter_and_smooth_eq] at hq
    obtain ⟨r, hr, hfr⟩ := List.mem_map.mp hq
    have hmem := List.mem_filter.mp hr
    exact ⟨r, hmem.1, by simpa [fusedKeep] using hmem.2, hfr.symm⟩

theorem filter_retains_exactly_above_threshold_witness :
    fusedTransform qOps 10 3 ⟨11, []⟩ ∈
      filter_and_smooth_geometries qOps 10 10 3 [⟨11, []⟩] :=
  (filter_retains_exactly_above_threshold qOps 10 10 3 [⟨11, []⟩]).2.1
    ⟨11, []⟩ (by decide) (by decide)

/-- C8: the generic filter-and-smooth operation never increases the
row count: rows may be dropped by the area filter but none are ever
added. -/
theorem filter_and_smooth_never_adds_rows {G : Type} (ops : GeomOps G)
    (t s tol : ℚ) (gdf : List (Feature G)) :
    (filter_and_smooth_geometries ops t s tol gdf).length ≤ gdf.length := by
  rw [filter_and_smooth_eq, List.length_map]
  exact List.length_filter_le _ _

/-- C10: every output row of the generic filter-and-smooth operation
carries the columns of its source input row with an `area_m2` column
holding the planar area of the source geometry computed in the metric
working frame before smoothing; all other columns are preserved, and
when the input did not already have an `area_m2` column the output
column list is exactly the input column list plus `area_m2`. -/
theorem filter_output_adds_area_column {G : Type} (ops : GeomOps G)
    (t s tol : ℚ) (gdf : List (Feature G)) :
    ∀ q ∈ filter_and_smooth_geometries ops t s tol gdf,
      ∃ r ∈ gdf,
        q.attrs = setCol r.attrs "area_m2"
            (Val.num (ops.area (ops.toWorking r.geometry))) ∧
        getCol q.attrs "area_m2" =
            some (Val.num (ops.area (ops.toWorking r.geometry))) ∧
        (∀ k, k ≠ "area_m2" → getCol q.attrs k = getCol r.attrs k) ∧
        ("area_m2" ∉ r.attrs.map Prod.fst →
          q.attrs.map Prod.fst = r.attrs.map Prod.fst ++ ["area_m2"]) := by
  intro q hq
  rw [filter_and_smooth_eq] at hq
  obtain ⟨r, hr, hfr⟩ := List.mem_map.mp hq
  subst hfr
  refine ⟨r, (List.mem_filter.mp hr).1, rfl, getCol_setCol_self _ _ _, ?_, ?_⟩
  · intro k hk
    exact getCol_setCol_of_ne _ _ _ _ hk
  · intro hnm
    exact keys_setCol_of_not_mem _ _ _ hnm

theorem filter_output_adds_area_column_witness :
    ∃ r ∈ [(⟨11, [("natural", Val.str "water")]⟩ : Feature ℤ)],
      (fusedTransform qOps 10 3 ⟨11, [("natural", Val.str "water")]⟩).attrs =
          setCol r.attrs "area_m2" (Val.num (qOps.area (qOps.toWorking r.geometry))) ∧
      getCol (fusedTransform qOps 10 3 ⟨11, [("natural", Val.str "water")]⟩).attrs "area_m2" =
          some (Val.num (qOps.area (qOps.toWorking r.geometry))) ∧
      (∀ k, k ≠ "area_m2" →
          getCol (fusedTransform qOps 10 3 ⟨11, [("natural", Val.str "water")]⟩).attrs k =
            getCol r.attrs k) ∧
      ("area_m2" ∉ r.attrs.map Prod.fst →
        (fusedTransform qOps 10 3 ⟨11, [("natural", Val.str "water")]⟩).attrs.map Prod.fst =
          r.attrs.map Prod.fst ++ ["area_m2"]) :=
  filter_output_adds_area_column qOps 10 10 3
    [⟨11, [("natural", Val.str "water")]⟩]
    (fusedTransform qOps 10 3 ⟨11, [("natural", Val.str "water")]⟩) (by decide)

/-- C4 as stated is false: the generic filter-and-smooth operation is
not idempotent for every feature collection and every behavior of the
geometry operations it invokes.  The witness instantiation reflects
the real failure mode the specification itself hedges against: the
smoothing and simplification of a retained row may push its metric
area back to or below the threshold (here a row of area 11 against
threshold 10 is smoothed and simplified down to 8), and the second
application then drops the row. -/
theorem filter_and_smooth_not_idempotent :
    ¬ (∀ (G : Type) (ops : GeomOps G) (t s tol : ℚ) (gdf : List (Feature G)),
        filter_and_smooth_geometries ops t s tol
            (filter_and_smooth_geometries ops t s tol gdf) =
          filter_and_smooth_geometries ops t s tol gdf) := by
  intro h
  have h2 := h ℤ qOps 10 10 3 [⟨11, []⟩]
  exact absurd h2 (by decide)

/-- C4 amended: the generic filter-and-smooth operation is idempotent
on its own output once area and simplification have converged, exactly
as the specification sentence provides: if reprojecting back and forth
returns every geometry unchanged, every output row still has metric
area strictly above the threshold, and the smoothing and
simplification chain leaves every output geometry fixed, then a second
application with identical parameters keeps every row, keeps every
geometry, and changes no column other than the recomputed `area_m2`
audit column. -/
theorem filter_and_smooth_idempotent_of_converged {G : Type} (ops : GeomOps G)
    (t s tol : ℚ) (gdf : List (Feature G))
    (hproj : ∀ g, ops.toInput (ops.toWorking g) = g)
    (hconv : ∀ q ∈ filter_and_smooth_geometries ops t s tol gdf,
        t < ops.area (ops.toWorking q.geometry) ∧
        ops.simplify tol (ops.buffer (-s) (ops.buffer s (ops.toWorking q.geometry))) =
          ops.toWorking q.geometry) :
    (filter_and_smooth_geometries ops t s tol
        (filter_and_smooth_geometries ops t s tol gdf)).length =
      (filter_and_smooth_geometries ops t s tol gdf).length ∧
    ∀ i (h1 : i < (filter_and_smooth_geometries ops t s tol
          (filter_and_smooth_geometries ops t s tol gdf)).length)
        (h2 : i < (filter_and_smooth_geometries ops t s tol gdf).length),
      ((filter_and_smooth_geometries ops t s tol
          (filter_and_smooth_geometries ops t s tol gdf)).get ⟨i, h1⟩).geometry =
        ((filter_and_smooth_geometries ops t s tol gdf).get ⟨i, h2⟩).geometry ∧
      ∀ k, k ≠ "area_m2" →
        getCol ((filter_and_smooth_geometries ops t s tol
            (filter_and_smooth_geometries ops t s tol gdf)).get ⟨i, h1⟩).attrs k =
          getCol ((filter_and_smooth_geometries ops t s tol gdf).get ⟨i, h2⟩).attrs k := by
  have hfilter : (filter_and_smooth_geometries ops t s tol gdf).filter (fusedKeep ops t) =
      filter_and_smooth_geometries ops t s tol gdf :=
    List.filter_eq_self.mpr fun q hq => by
      simpa [fusedKeep] using (hconv q hq).1
  have hpass2 : filter_and_smooth_geometries ops t s tol
      (filter_and_smooth_geometries ops t s tol gdf) =
      (filter_and_smooth_geometries ops t s tol gdf).map (fusedTransform ops s tol) := by
    rw [filter_and_smooth_eq ops t s tol (filter_and_smooth_geometries ops t s tol gdf),
      hfilter]
  constructor
  · rw [hpass2, List.length_map]
  · intro i h1 h2
    have hget : (filter_and_smooth_geometries ops t s tol
        (filter_and_smooth_geometries ops t s tol gdf)).get ⟨i, h1⟩ =
        fusedTransform ops s tol
          ((filter_and_smooth_geometries ops t s tol gdf).get ⟨i, h2⟩) := by
      have := List.get_of_eq hpass2 ⟨i, h1⟩
      rw [this]
      simp [List.get_eq_getElem, List.getElem_map]
    have hqmem := List.get_mem (filter_and_smooth_geometries ops t s tol gdf) i h2
    constructor
    · rw [hget]
      show ops.toInput (ops.simplify tol (ops.buffer (-s) (ops.buffer s (ops.toWorking
        ((filter_and_smooth_geometries ops t s tol gdf).get ⟨i, h2⟩).geometry)))) = _
      rw [(hconv _ hqmem).2, hproj]
    · intro k hk
      rw [hget]
      exact getCol_setCol_of_ne _ _ _ _ hk

theorem filter_and_smooth_idempotent_of_converged_witness :
    (filter_and_smooth_geometries idOps 10 10 3
        (filter_and_smooth_geometries idOps 10 10 3 [⟨11, []⟩])).length =
      (filter_and_smooth_geometries idOps 10 10 3 [⟨11, []⟩]).length :=
  (filter_and_smooth_idempotent_of_converged idOps 10 10 3 [⟨11, []⟩]
    (fun g => rfl) (by decide)).1

/-- C7: if a retained row collapses to the empty geometry during the
buffer-in/buffer-out smoothing step, the pipeline still returns
normally and that row appears in the output with the empty geometry:
the subsequent simplify and reprojection steps map the empty geometry
to itself (the documented geopandas/shapely behavior on empty
geometries, stated here as hypotheses on the operations) and no error
path exists in the code. -/
theorem collapsed_geometry_yields_empty_row {G : Type} (ops : GeomOps G)
    (t s tol : ℚ) (gdf : List (Feature G)) (r : Feature G)
    (hsimpl : ops.simplify tol ops.empty = ops.empty)
    (hback : ops.toInput ops.empty = ops.empty)
    (hr : r ∈ gdf)
    (hkeep : t < ops.area (ops.toWorking r.geometry))
    (hcollapse : ops.buffer (-s) (ops.buffer s (ops.toWorking r.geometry)) = ops.empty) :
    ∃ q ∈ filter_and_smooth_geometries ops t s tol gdf,
      q.geometry = ops.empty ∧
      q.attrs = setCol r.attrs "area_m2"
        (Val.num (ops.area (ops.toWorking r.geometry))) := by
  refine ⟨fusedTransform ops s tol r, ?_, ?_, rfl⟩
  · rw [filter_and_smooth_eq]
    exact List.mem_map_of_mem _
      (List.mem_filter.mpr ⟨hr, by simpa [fusedKeep] using hkeep⟩)
  · show ops.toInput (ops.simplify tol
      (ops.buffer (-s) (ops.buffer s (ops.toWorking r.geometry)))) = ops.empty
    rw [hcollapse, hsimpl, hback]

theorem collapsed_geometry_yields_empty_row_witness :
    ∃ q ∈ filter_and_smooth_geometries collapseOps 10 5 2 [⟨11, []⟩],
      q.geometry = collapseOps.empty ∧
      q.attrs = setCol ([] : List (String × Val)) "area_m2"
        (Val.num (collapseOps.area (collapseOps.toWorking (11 : ℤ)))) :=
  collapsed_geometry_yields_empty_row collapseOps 10 5 2 [⟨11, []⟩] ⟨11, []⟩
    rfl rfl (by decide) (by decide) (by decide)

/-- C2: the category-aware merge-and-stylize operation never emits an
output row whose category column is "other", whatever the areas or
count of the "other" rows of the input. -/
theorem stylize_never_emits_other {G : Type} (ops : GeomOps G)
    (t p s tol : ℚ) (gdf out : List (Feature G))
    (h : stylize_natural_geometries ops t p s tol gdf = Except.ok out) :
    ∀ q ∈ out, getCol q.attrs "category" ≠ some (Val.str "other") := by
  intro q hq
  simp only [stylize_natural_geometries] at h
  split at h
  · exact absurd h (by simp)
  · simp only [Except.ok.injEq] at h
    rw [← h] at hq
    obtain ⟨q0, hq0, hq0q⟩ := List.mem_map.mp hq
    obtain ⟨cat, hcat, hq0in⟩ := List.mem_flatMap.mp hq0
    by_cases hco : cat = "other"
    · simp [stylizeGroup, hco] at hq0in
    · have hattrs : q0.attrs = [("category", Val.str cat)] := by
        rw [stylizeGroup, if_pos hco] at hq0in
        simp only [] at hq0in
        split at hq0in
        · obtain ⟨g, hg, hgq⟩ := List.mem_map.mp hq0in
          rw [← hgq]
        · rw [List.mem_singleton] at hq0in
          rw [hq0in]
      rw [← hq0q]
      show getCol q0.attrs "category" ≠ some (Val.str "other")
      rw [hattrs]
      have hread : getCol [("category", Val.str cat)] "category" =
          some (Val.str cat) := by
        simp [getCol]
      rw [hread]
      simp only [ne_eq, Option.some.injEq, Val.str.injEq]
      exact hco

theorem stylize_never_emits_other_witness :
    getCol (⟨200013, [("category", Val.str "forest")]⟩ : Feature ℤ).attrs "category" ≠
      some (Val.str "other") :=
  stylize_never_emits_other qOps 170000 10 5 2
    [⟨200000, [("category", Val.str "forest")]⟩]
    [⟨200013, [("category", Val.str "forest")]⟩] rfl
    ⟨200013, [("category", Val.str "forest")]⟩ (by decide)

/-- C3 is a code bug: on an input whose every surviving row has
category "other" (here a single 200000 square meter feature, well
above the 170000 threshold), the merge loop emits no rows, so
`gpd.GeoDataFrame(final_geoms, crs=working_crs)` is called on an empty
row list, which has no geometry column, and geopandas raises instead
of returning an empty collection reprojected to the input frame.  The
same error path is reached when the area filter discards every row.
This theorem evaluates the code at the failing input. -/
theorem stylize_raises_on_all_other_input :
    stylize_natural_geometries qOps 170000 10 5 2
        [⟨200000, [("category", Val.str "other")]⟩] =
      Except.error
        "Assigning CRS to a GeoDataFrame without a geometry column is not supported" :=
  rfl

/-- C6 as stated is false: the returned segments table is the iloc
slice (3, 11) of the multi-coordinate placemarks, so a document with a
single two-coordinate placemark yields an empty segments table and
that placemark, despite having more than one coordinate, is not placed
in the returned segments table. -/
theorem extract_split_claim_false :
    ¬ (∀ doc : List Placemark,
        (∀ pm ∈ doc, pm.Coordinates.length = 1 → pm ∈ pointsTable doc) ∧
        (∀ pm ∈ doc, 1 < pm.Coordinates.length → pm ∈ segmentsTable 3 11 doc) ∧
        (∀ pm ∈ pointsTable doc, pm ∉ segmentsTable 3 11 doc)) := by
  intro h
  have h2 := (h [⟨"Milngavie",
      [[⟨false, [0], [0]⟩, ⟨false, [0], [0]⟩],
       [⟨false, [1], [0]⟩, ⟨false, [1], [0]⟩]]⟩]).2.1
    ⟨"Milngavie",
      [[⟨false, [0], [0]⟩, ⟨false, [0], [0]⟩],
       [⟨false, [1], [0]⟩, ⟨false, [1], [0]⟩]]⟩ (by decide) (by decide)
  exact absurd h2 (by decide)

/-- C6 amended: a placemark is in the points table exactly when its
coordinate sequence has length 1; every placemark with more than one
coordinate is placed in the pre-slice segments rows, of which the
returned segments table is the configured contiguous iloc slice
(default (3, 11)); every row of the returned segments table is a
multi-coordinate placemark of the document, and a single-coordinate
placemark never appears in the returned segments table. -/
theorem extract_split_rule (doc : List Placemark) (a b : ℕ) :
    (∀ pm, pm ∈ pointsTable doc ↔ pm ∈ doc ∧ pm.Coordinates.length = 1) ∧
    (∀ pm ∈ doc, 1 < pm.Coordinates.length → pm ∈ segmentsAll doc) ∧
    (∀ pm ∈ segmentsTable a b doc, pm ∈ doc ∧ 1 < pm.Coordinates.length) ∧
    (∀ pm ∈ pointsTable doc, pm ∉ segmentsTable a b doc) := by
  have hseg : ∀ pm ∈ segmentsTable a b doc, pm ∈ segmentsAll doc := by
    intro pm hpm
    unfold segmentsTable ilocSlice at hpm
    exact List.mem_of_mem_take (List.mem_of_mem_drop hpm)
  refine ⟨?_, ?_, ?_, ?_⟩
  · intro pm
    rw [pointsTable, List.mem_filter]
    simp
  · intro pm hpm hlen
    exact List.mem_filter.mpr ⟨hpm, by simpa using hlen⟩
  · intro pm hpm
    have hmem := List.mem_filter.mp (hseg pm hpm)
    exact ⟨hmem.1, by simpa using hmem.2⟩
  · intro pm hpt hsg
    have h1 := (List.mem_filter.mp hpt).2
    have h2 := (List.mem_filter.mp (hseg pm hsg)).2
    simp at h1 h2
    omega

theorem extract_split_rule_witness :
    (⟨"Start", [[⟨false, [0], [0]⟩]]⟩ : Placemark) ∈
      pointsTable [⟨"Start", [[⟨false, [0], [0]⟩]]⟩] :=
  ((extract_split_rule [⟨"Start", [[⟨false, [0], [0]⟩]]⟩] 3 11).1
    ⟨"Start", [[⟨false, [0], [0]⟩]]⟩).mpr (by decide)

/-- C9: the classifier assigns "grass" only through the natural tag
equal to "heath": a row carrying any of the grass-candidate landuse or
landcover values, but no forest tag and a natural tag different from
"heath", is classified "other", because the cascade never consults the
landuse or landcover entries of the grass tag set. -/
theorem classify_grass_candidates_other (row : TagRow)
    (hcand : optMem row.landuse grass_tags_landuse = true ∨
      optMem row.landcover grass_tags_landcover = true)
    (hnataf : optMem row.natural forest_tags_natural = false)
    (hlupf : optMem row.landuse forest_tags_landuse = false)
    (hheath : row.natural ≠ some "heath") :
    classify row = "other" := by
  have h3 : optMem row.natural grass_tags_natural = false := by
    cases hn : row.natural with
    | none => rfl
    | some v =>
        by_cases hv : v = "heath"
        · exact absurd (hn.trans (by rw [hv])) hheath
        · simp [optMem, grass_tags_natural, hv]
  simp [classify, hnataf, hlupf, h3]

theorem classify_grass_candidates_other_witness :
    classify ⟨none, some "meadow", none, none⟩ = "other" :=
  classify_grass_candidates_other ⟨none, some "meadow", none, none⟩
    (Or.inl (by decide)) (by decide) (by decide) (by decide)

/-- C5: re-parsing the textual representation that the extractor
writes into the Coordinates cell of the tabular files reproduces the
original list of coordinate tuples exactly, for every placemark whose
tuples are nonempty and whose numerals are well formed decimal
numerals (the form Python float repr always produces for coordinate
magnitudes). -/
theorem coordinates_cell_roundtrip (pm : Placemark)
    (hwf : ∀ t ∈ pm.Coordinates, t ≠ [] ∧ ∀ x ∈ t, wfDec x) :
    parsePyList (coordinates_cell pm) = some (pm.Coordinates, []) :=
  parsePyList_render pm.Coordinates hwf

theorem coordinates_cell_roundtrip_witness :
    parsePyList (coordinates_cell ⟨"Fort William",
        [[⟨true, [4], [9, 0, 7]⟩, ⟨false, [5, 5], [8, 6, 3]⟩, ⟨false, [0], [0]⟩]]⟩) =
      some ([[⟨true, [4], [9, 0, 7]⟩, ⟨false, [5, 5], [8, 6, 3]⟩, ⟨false, [0], [0]⟩]], []) :=
  coordinates_cell_roundtrip
    ⟨"Fort William",
      [[⟨true, [4], [9, 0, 7]⟩, ⟨false, [5, 5], [8, 6, 3]⟩, ⟨false, [0], [0]⟩]]⟩
    (by decide)
